import Mathlib

/-!
# Verification of the `skykey` key manager (`src/skykey/skykey.go`)

A shallow embedding of the skykey package: a symmetric key manager that
creates, persists and looks up encryption keys.  Bytes are modelled as `Nat`
(with explicit `< 256` hypotheses where the value range matters), byte
strings as `List Nat`, and the two in-memory Go maps as association lists
with first-match lookup (Go map insertion of a fresh key is modelled by
prepending, which shadows any older binding exactly as a map overwrite
does).

External packages consumed by the file (`crypto`, `build`, `types`,
`encoding`, `encoding/base64`) are not part of `src/`; where a claim
depends on them, the corresponding definition carries a doc comment
starting `Modelled from the spec:` and follows the specification's
description of that collaborator.
-/

set_option autoImplicit false
set_option maxRecDepth 4000

namespace Skykeys

/-- First-match lookup in an association list; models Go map indexing
`m[k]` together with the `ok` flag (`none` = absent). -/
def lookupA {α β : Type} [DecidableEq α] : List (α × β) → α → Option β
  | [], _ => none
  | (k, v) :: rest, a => if k = a then some v else lookupA rest a

/-- Little-endian interpretation of a byte list, least significant byte
first.  Models the host codec's 8-byte unsigned length prefix on reads. -/
def leDecode : List Nat → Nat
  | [] => 0
  | b :: rest => b + 256 * leDecode rest

/-- Little-endian encoding of `n` into exactly `k` bytes (dropping bits
beyond `256^k`, as a fixed-width machine encode does). -/
def leEncodeN : Nat → Nat → List Nat
  | 0, _ => []
  | k + 1, n => n % 256 :: leEncodeN k (n / 256)

/-- Modelled from the spec: the host codec's allocation limit
(`encoding.DefaultAllocLimit`) bounding any length prefix accepted on
decode.  The exact value is irrelevant to every claim below; hypotheses
stay far beneath it. -/
def allocLimit : Nat := 100000000

/-- Go `SpecifierLen` from `types`: a specifier is a fixed 16-byte tag. -/
def specifierLen : Nat := 16

/-- Modelled from the spec: `types.NewSpecifier` builds a 16-byte tag from
ASCII content right-padded with NUL (§6, glossary). -/
def padSpecifier (content : List Nat) : List Nat :=
  content ++ List.replicate (specifierLen - content.length) 0

/-- Go `crypto.TypeXChaCha20`, the one cipher type the store accepts: the
specifier of the ASCII string `XChaCha20`. -/
def TypeXChaCha20 : List Nat :=
  padSpecifier [88, 67, 104, 97, 67, 104, 97, 50, 48]

/-- Go `chacha.KeySize`: the XChaCha20 key is 32 bytes. -/
def chachaKeySize : Nat := 32

/-- Go `chacha.XNonceSize`: the XChaCha20 extended nonce is 24 bytes. -/
def chachaXNonceSize : Nat := 24

/-- Go `MaxKeyNameLen`: maximum length of a skykey's name (bytes). -/
def MaxKeyNameLen : Nat := 128

/-- Go `Skykey` (skykey.go:73-77): a name, a cipher type (a 16-byte tag,
kept as its byte list), and raw entropy bytes.  The Go `Name` is a string,
i.e. a byte sequence; it is kept as its byte list so that `len(name)` is
the list length. -/
structure Skykey where
  Name : List Nat
  CipherType : List Nat
  Entropy : List Nat
deriving DecidableEq, Repr

/-- Go `marshalSia` (skykey.go:125-131): name with an 8-byte little-endian
length prefix, then the fixed 16-byte cipher type, then entropy with an
8-byte length prefix (wire layout per spec §4.1). -/
def marshalSia (sk : Skykey) : List Nat :=
  leEncodeN 8 sk.Name.length ++ sk.Name ++ sk.CipherType ++
    leEncodeN 8 sk.Entropy.length ++ sk.Entropy

/-- Modelled from the spec: one length-prefixed field of the host codec
(`encoding.Decoder`), per §4.1 — an 8-byte unsigned little-endian length,
then that many raw bytes; fails on a truncated stream or a length beyond
the allocation limit.  Returns the field and the unconsumed rest. -/
def decodePrefixed (bs : List Nat) : Option (List Nat × List Nat) :=
  if bs.length < 8 then none
  else
    let len := leDecode (bs.take 8)
    let rest := bs.drop 8
    if allocLimit < len then none
    else if rest.length < len then none
    else some (rest.take len, rest.drop len)

/-- Go `unmarshalSia` (skykey.go:116-122): decode name, cipher type and
entropy from the stream; on success also report the number of bytes
consumed (the file offset advance seen by `load`).  Any decoder error is
`none`. -/
def unmarshalSia (bs : List Nat) : Option (Skykey × Nat) :=
  match decodePrefixed bs with
  | none => none
  | some (name, r1) =>
    if r1.length < specifierLen then none
    else
      let ct := r1.take specifierLen
      let r2 := r1.drop specifierLen
      match decodePrefixed r2 with
      | none => none
      | some (ent, _) =>
        some (⟨name, ct, ent⟩, 8 + name.length + specifierLen + 8 + ent.length)

/-- The URL-safe base64 alphabet (Go `base64.URLEncoding`), as the
character code of digit `v < 64`: `A-Z`, `a-z`, `0-9`, `-`, `_`. -/
def b64Char (v : Nat) : Nat :=
  if v < 26 then 65 + v
  else if v < 52 then 97 + (v - 26)
  else if v < 62 then 48 + (v - 52)
  else if v = 62 then 45
  else 95

/-- Inverse of the URL-safe base64 alphabet; `none` on a character outside
the alphabet. -/
def b64CharDec (c : Nat) : Option Nat :=
  if 65 ≤ c ∧ c ≤ 90 then some (c - 65)
  else if 97 ≤ c ∧ c ≤ 122 then some (26 + (c - 97))
  else if 48 ≤ c ∧ c ≤ 57 then some (52 + (c - 48))
  else if c = 45 then some 62
  else if c = 95 then some 63
  else none

/-- Modelled from the spec: padded URL-safe base64 encoding (Go
`base64.URLEncoding.EncodeToString`), 3 input bytes per 4 output
characters, `=` (code 61) padding on a 1- or 2-byte tail. -/
def b64Encode : List Nat → List Nat
  | b0 :: b1 :: b2 :: rest =>
    let n := b0 * 65536 + b1 * 256 + b2
    b64Char (n / 262144) :: b64Char (n / 4096 % 64) ::
      b64Char (n / 64 % 64) :: b64Char (n % 64) :: b64Encode rest
  | [b0, b1] =>
    let n := b0 * 1024 + b1 * 4
    [b64Char (n / 4096), b64Char (n / 64 % 64), b64Char (n % 64), 61]
  | [b0] =>
    let n := b0 * 16
    [b64Char (n / 64), b64Char (n % 64), 61, 61]
  | [] => []

/-- Modelled from the spec: padded URL-safe base64 decoding (Go
`base64.URLEncoding.DecodeString`); fails on a malformed group, a
character outside the alphabet, or misplaced padding. -/
def b64Decode : List Nat → Option (List Nat)
  | [] => some []
  | c0 :: c1 :: c2 :: c3 :: rest =>
    match b64CharDec c0, b64CharDec c1 with
    | some d0, some d1 =>
      if c2 = 61 then
        if c3 = 61 ∧ rest = [] then some [d0 * 4 + d1 / 16] else none
      else
        match b64CharDec c2 with
        | some d2 =>
          if c3 = 61 then
            if rest = [] then some [d0 * 4 + d1 / 16, d1 % 16 * 16 + d2 / 4]
            else none
          else
            match b64CharDec c3 with
            | some d3 =>
              match b64Decode rest with
              | some tail =>
                some ((d0 * 4 + d1 / 16) :: (d1 % 16 * 16 + d2 / 4) ::
                  (d2 % 4 * 64 + d3) :: tail)
              | none => none
            | none => none
        | none => none
    | _, _ => none
  | _ => none

/-- Go `ToString` (skykey.go:134-138): base64 of the wire form.  Encoding
into a byte buffer cannot fail, so the Go error is always nil and is
dropped here. -/
def ToString (sk : Skykey) : List Nat :=
  b64Encode (marshalSia sk)

/-- Go `FromString` (skykey.go:141-147): decode the base64 text, then
unmarshal a Skykey from the resulting bytes (trailing bytes after the
record are ignored, as the Go decoder leaves them unread). -/
def FromString (s : List Nat) : Option Skykey :=
  match b64Decode s with
  | none => none
  | some bs =>
    match unmarshalSia bs with
    | none => none
    | some (sk, _) => some sk

/-- The entropy that enters the ID hash (skykey.go:154-161): for
XChaCha20 the nonce (everything past the 32-byte key) is dropped, for any
other cipher type the full entropy is used.  Go's `Entropy[:32]` panics
when the entropy is shorter than 32 bytes; `List.take` truncates instead,
which agrees with Go on every input Go accepts. -/
def effectiveEntropy (sk : Skykey) : List Nat :=
  if sk.CipherType = TypeXChaCha20 then sk.Entropy.take chachaKeySize
  else sk.Entropy

/-- Go `SkykeyID` (skykey.go:70).  Modelled from the spec: the real ID is
the first 16 bytes of `crypto.HashAll(SkykeySpecifier, cipherType,
effectiveEntropy)`; the hash is a host primitive outside `src/` (§1, §6),
modelled injectively by recording the non-constant hashed parts (the
`SkykeySpecifier` domain tag is the same for every key and is omitted). -/
structure SkykeyID where
  hashedCipherType : List Nat
  hashedEntropy : List Nat
deriving DecidableEq, Repr

/-- Go `ID` (skykey.go:153-166): hash of the cipher type and the effective
entropy — the nonce is ignored for XChaCha20 so that a master key and its
subkeys share an ID. -/
def Skykey.ID (sk : Skykey) : SkykeyID :=
  ⟨sk.CipherType, effectiveEntropy sk⟩

/-- Modelled from the spec: `crypto.NewSiaKey(ct, entropy)` validates that
the entropy is well-formed for the cipher type (§6); the only cipher the
spec documents is XChaCha20 with a 32-byte key and a 24-byte extended
nonce, i.e. exactly 56 bytes of entropy (§1, §3). -/
def NewSiaKeyOk (ct : List Nat) (entropy : List Nat) : Bool :=
  ct = TypeXChaCha20 && entropy.length = chachaKeySize + chachaXNonceSize

/-- Go `SubkeyWithNonce` (skykey.go:215-232): reject a nonce that is not 24
bytes, build `entropy = key || nonce` from the first 32 entropy bytes of
the parent, sanity-check it against the cipher primitive, and return a key
with the same name and cipher type.  (`Entropy[:32]` is `List.take` here;
see `effectiveEntropy`.) -/
def SubkeyWithNonce (sk : Skykey) (nonce : List Nat) : Option Skykey :=
  if nonce.length ≠ chachaXNonceSize then none
  else
    let entropy := sk.Entropy.take chachaKeySize ++ nonce
    if NewSiaKeyOk sk.CipherType entropy then
      some ⟨sk.Name, sk.CipherType, entropy⟩
    else none

/-- The error kinds surfaced by the package (skykey.go:51-63 and the
inline `errors.New` sites), plus `ioError` for any underlying file-system
failure. -/
inductive Err
  | nameExists
  | idExists
  | noSuchName
  | noSuchID
  | nameTooLong
  | unsupportedCipher
  | badEncoding
  | badMagic
  | badVersion
  | unknownVersion
  | truncatedFile
  | ioError
deriving DecidableEq, Repr

/-- Go `SkykeyManager` (skykey.go:81-90): the two in-memory maps, as
association lists with first-match lookup.  The `version`, `fileLen` and
file-path fields drive only the persistence layer, which is modelled
separately by `loadHeader` and `loadRecords`; the mutex serialises the
operations, which the sequential embedding already does. -/
structure SkykeyManager where
  idsByName : List (List Nat × SkykeyID)
  keysByID : List (SkykeyID × Skykey)
deriving DecidableEq, Repr

/-- The manager `NewSkykeyManager` starts from (skykey.go:353-358):
both maps empty. -/
def emptyManager : SkykeyManager := ⟨[], []⟩

/-- Go `SupportsCipherType` (skykey.go:248-250): true iff the cipher type is
XChaCha20. -/
def SupportsCipherType (ct : List Nat) : Bool :=
  ct = TypeXChaCha20

/-- Go `saveKey` (skykey.go:492-525): stores the key in **both maps first**
(lines 495-497), then opens, seeks, appends the wire form, syncs and
rewrites the header.  All the file I/O is collapsed into the single
`diskOk` outcome: when any of those disk steps fails the error is
returned, but the map insertions have already happened and are not rolled
back. -/
def saveKey (sm : SkykeyManager) (diskOk : Bool) (skykey : Skykey) :
    SkykeyManager × Option Err :=
  let keyID := skykey.ID
  let sm' : SkykeyManager :=
    ⟨(skykey.Name, keyID) :: sm.idsByName, (keyID, skykey) :: sm.keysByID⟩
  if diskOk then (sm', none) else (sm', some Err.ioError)

/-- Go `CreateKey` (skykey.go:253-277): name-length check, cipher check, name
uniqueness check, then build the key from fresh entropy and `saveKey` it.
The fresh entropy drawn from `crypto.GenerateSiaKey` is passed in as
`freshEntropy` (the randomness oracle); the ID is never consulted. -/
def CreateKey (sm : SkykeyManager) (diskOk : Bool) (name : List Nat)
    (cipherType : List Nat) (freshEntropy : List Nat) :
    SkykeyManager × Except Err Skykey :=
  if MaxKeyNameLen < name.length then (sm, .error .nameTooLong)
  else if ¬ SupportsCipherType cipherType then (sm, .error .unsupportedCipher)
  else if (lookupA sm.idsByName name).isSome then (sm, .error .nameExists)
  else
    let skykey : Skykey := ⟨name, cipherType, freshEntropy⟩
    match saveKey sm diskOk skykey with
    | (sm', none) => (sm', .ok skykey)
    | (sm', some e) => (sm', .error e)

/-- Go `AddKey` (skykey.go:281-295): reject when the ID is already stored,
then when the name is already stored, otherwise `saveKey`.  No other
validation is performed. -/
def AddKey (sm : SkykeyManager) (diskOk : Bool) (sk : Skykey) :
    SkykeyManager × Option Err :=
  if (lookupA sm.keysByID sk.ID).isSome then (sm, some .idExists)
  else if (lookupA sm.idsByName sk.Name).isSome then (sm, some .nameExists)
  else saveKey sm diskOk sk

/-- Go `IDByName` (skykey.go:298-307). -/
def IDByName (sm : SkykeyManager) (name : List Nat) : Except Err SkykeyID :=
  match lookupA sm.idsByName name with
  | none => .error .noSuchName
  | some id => .ok id

/-- Go `KeyByName` (skykey.go:310-325): name → id through `idsByName`, then
id → key through `keysByID`; a miss in the second map yields the
`errNoSkykeysWithThatID` error. -/
def KeyByName (sm : SkykeyManager) (name : List Nat) : Except Err Skykey :=
  match lookupA sm.idsByName name with
  | none => .error .noSuchName
  | some id =>
    match lookupA sm.keysByID id with
    | none => .error .noSuchID
    | some key => .ok key

/-- Go `KeyByID` (skykey.go:328-337). -/
def KeyByID (sm : SkykeyManager) (id : SkykeyID) : Except Err Skykey :=
  match lookupA sm.keysByID id with
  | none => .error .noSuchID
  | some key => .ok key

/-! ## Persistence: header and record loading -/

/-- Go `headerLen` (skykey.go:32): magic + version + 8-byte file length. -/
def headerLen : Nat := specifierLen + specifierLen + 8

/-- Go `SkykeyFileMagic` (skykey.go:49): specifier of `SkykeyFile`. -/
def SkykeyFileMagic : List Nat :=
  padSpecifier [83, 107, 121, 107, 101, 121, 70, 105, 108, 101]

/-- Go `skykeyVersionString` (skykey.go:41): the code's version `1.4.4`, as
character codes. -/
def skykeyVersionString : List Nat := [49, 46, 52, 46, 52]

/-- Split a byte string at every `.` (code 46); models
`strings.Split(s, ".")`, so a leading, trailing or doubled dot produces an
empty component. -/
def splitDots (s : List Nat) : List (List Nat) :=
  match s with
  | [] => [[]]
  | c :: rest =>
    let groups := splitDots rest
    if c = 46 then [] :: groups
    else
      match groups with
      | g :: gs => (c :: g) :: gs
      | [] => [[c]]

/-- A nonempty all-digit component. -/
def isNumeric (c : List Nat) : Bool :=
  decide (c ≠ []) && c.all (fun d => 48 ≤ d && d ≤ 57)

/-- Modelled from the spec: `version.IsValid` / `build.IsVersion` (§6), a
semantic-version predicate — dot-separated nonempty numeric components. -/
def IsVersion (s : List Nat) : Bool :=
  (splitDots s).all isNumeric

/-- Numeric value of a digit string. -/
def numVal (c : List Nat) : Nat :=
  c.foldl (fun acc d => acc * 10 + (d - 48)) 0

/-- Compare version component lists; a shared prefix followed by extra
components makes the longer version the greater one. -/
def cmpComponents : List Nat → List Nat → Int
  | [], [] => 0
  | [], _ :: _ => -1
  | _ :: _, [] => 1
  | x :: xs, y :: ys =>
    if x < y then -1 else if y < x then 1 else cmpComponents xs ys

/-- Modelled from the spec: `version.Compare` / `build.VersionCmp` (§6), a
semantic-version comparison — negative iff `a` is an older version than
`b`. -/
def VersionCmp (a b : List Nat) : Int :=
  cmpComponents ((splitDots a).map numVal) ((splitDots b).map numVal)

/-- Go `loadHeader` (skykey.go:375-410): read `headerLen` bytes, check the
magic, decode the version specifier, strip the NUL bytes from its text
(`strings.ReplaceAll(·, "\x00", "")` on the specifier's text form),
require a valid version, reject a version strictly newer than the code's
`1.4.4`, and finally decode the stored file length.  Returns the version
specifier and the decoded file length. -/
def loadHeader (hdr : List Nat) : Except Err (List Nat × Nat) :=
  if hdr.length < headerLen then .error .ioError
  else if hdr.take specifierLen ≠ SkykeyFileMagic then .error .badMagic
  else
    let versionSpec := (hdr.drop specifierLen).take specifierLen
    let versionStr := versionSpec.filter (fun b => b ≠ 0)
    if ¬ IsVersion versionStr then .error .badVersion
    else if VersionCmp skykeyVersionString versionStr < 0 then
      .error .unknownVersion
    else .ok (versionSpec, leDecode ((hdr.drop (2 * specifierLen)).take 8))

/-- The record-reading loop of `load` (skykey.go:463-488): starting at
offset `headerLen`, unmarshal one skykey at a time from the file bytes,
insert it into both maps, and advance the offset by the bytes consumed,
while the offset is below the header's `fileLen`; afterwards the offset
must equal `fileLen` exactly.  The Go loop has no fuel; the `fuel`
argument only bounds the recursion and `load` passes enough of it that it
never runs out (each decoded record consumes at least 32 bytes). -/
def loadRecords (fuel : Nat) (file : List Nat) (n fileLen : Nat)
    (sm : SkykeyManager) : Except Err SkykeyManager :=
  match fuel with
  | 0 => .error .ioError
  | fuel + 1 =>
    if n < fileLen then
      match unmarshalSia (file.drop n) with
      | none => .error .badEncoding
      | some (sk, consumed) =>
        loadRecords fuel file (n + consumed) fileLen
          ⟨(sk.Name, sk.ID) :: sm.idsByName, (sk.ID, sk) :: sm.keysByID⟩
    else if n = fileLen then .ok sm
    else .error .truncatedFile

/-- Go `load` (skykey.go:433-488), from the point where the header has been
parsed: read the records from offset `headerLen` up to the header's
`fileLen` into an empty manager. -/
def load (file : List Nat) (fileLen : Nat) : Except Err SkykeyManager :=
  loadRecords (fileLen + 1) file headerLen fileLen emptyManager

/-- The file offsets the record loop can reach from offset `n`: either `n`
itself, or — while still below `fileLen` — the offset just past a record
that unmarshals successfully. -/
inductive Reaches (file : List Nat) (fileLen : Nat) : Nat → Nat → Prop
  | refl (n : Nat) : Reaches file fileLen n n
  | step (n m : Nat) (sk : Skykey) (c : Nat) :
    n < fileLen → unmarshalSia (file.drop n) = some (sk, c) →
    Reaches file fileLen (n + c) m → Reaches file fileLen n m

/-- The manager states reachable through the public lifecycle: the fresh
empty manager, a manager constructed by a successful `load`, and any state
a `CreateKey` or `AddKey` call leaves behind (whether it returned an error
or not, and whatever the disk did). -/
inductive Reachable : SkykeyManager → Prop
  | init : Reachable emptyManager
  | loaded (file : List Nat) (fileLen : Nat) (sm : SkykeyManager) :
    load file fileLen = .ok sm → Reachable sm
  | created (sm sm' : SkykeyManager) (diskOk : Bool)
      (name ct ent : List Nat) (r : Except Err Skykey) :
    Reachable sm → CreateKey sm diskOk name ct ent = (sm', r) →
    Reachable sm'
  | added (sm sm' : SkykeyManager) (diskOk : Bool) (sk : Skykey)
      (r : Option Err) :
    Reachable sm → AddKey sm diskOk sk = (sm', r) → Reachable sm'

/-! ## Helper lemmas -/

theorem lookupA_mem {α β : Type} [DecidableEq α] (l : List (α × β)) (a : α)
    (b : β) (h : lookupA l a = some b) : (a, b) ∈ l := by
  induction l with
  | nil => simp [lookupA] at h
  | cons p rest ih =>
    obtain ⟨k, v⟩ := p
    unfold lookupA at h
    by_cases hk : k = a
    · rw [if_pos hk] at h
      injection h with h
      subst hk h
      exact List.mem_cons_self _ _
    · rw [if_neg hk] at h
      exact List.mem_cons_of_mem _ (ih h)

theorem lookupA_cons_isSome {α β : Type} [DecidableEq α] (l : List (α × β))
    (k a : α) (v : β) (h : (lookupA l a).isSome) :
    (lookupA ((k, v) :: l) a).isSome := by
  unfold lookupA
  by_cases hk : k = a
  · rw [if_pos hk]; rfl
  · rwa [if_neg hk]

theorem unmarshalSia_consumed (bs : List Nat) (sk : Skykey) (c : Nat)
    (h : unmarshalSia bs = some (sk, c)) : 32 ≤ c := by
  unfold unmarshalSia at h
  cases h1 : decodePrefixed bs with
  | none => rw [h1] at h; exact absurd h (by simp)
  | some p =>
    obtain ⟨name, r1⟩ := p
    rw [h1] at h
    simp only at h
    by_cases h2 : r1.length < specifierLen
    · rw [if_pos h2] at h; exact absurd h (by simp)
    · rw [if_neg h2] at h
      cases h3 : decodePrefixed (r1.drop specifierLen) with
      | none => rw [h3] at h; exact absurd h (by simp)
      | some q =>
        obtain ⟨ent, r2⟩ := q
        rw [h3] at h
        simp only [Option.some.injEq, Prod.mk.injEq] at h
        have : c = 8 + name.length + specifierLen + 8 + ent.length := h.2.symm
        unfold specifierLen at this
        omega

/-! ## C3: ID stability under nonce change -/

/-- C3: for every key `m` and every 24-byte nonce `n` for which
`SubkeyWithNonce m n` succeeds, the returned subkey has the same ID as
`m`: the ID hashes only the cipher type and the key portion of the
entropy, and the subkey keeps both. -/
theorem subkey_id_stable (m sub : Skykey) (n : List Nat)
    (hn : n.length = 24) (h : SubkeyWithNonce m n = some sub) :
    sub.ID = m.ID := by
  unfold SubkeyWithNonce at h
  rw [if_neg (by simp [hn, chachaXNonceSize])] at h
  by_cases hok : NewSiaKeyOk m.CipherType (m.Entropy.take chachaKeySize ++ n) = true
  · rw [if_pos hok] at h
    injection h with h
    subst h
    unfold NewSiaKeyOk at hok
    simp only [Bool.and_eq_true, decide_eq_true_eq] at hok
    obtain ⟨hct, hlen⟩ := hok
    have htake : (m.Entropy.take chachaKeySize).length = chachaKeySize := by
      rw [List.length_append, hn] at hlen
      unfold chachaKeySize chachaXNonceSize at *
      omega
    show Skykey.ID ⟨m.Name, m.CipherType, m.Entropy.take chachaKeySize ++ n⟩ = m.ID
    unfold Skykey.ID effectiveEntropy
    simp only [hct, if_true, if_pos rfl]
    exact congrArg (SkykeyID.mk TypeXChaCha20) (List.take_left' htake)
  · rw [if_neg hok] at h
    exact absurd h (by simp)

/-- Witness for C3 at a concrete master key and nonce. -/
theorem subkey_id_stable_witness :
    ∃ sub, SubkeyWithNonce ⟨[97], TypeXChaCha20, List.replicate 56 7⟩
        (List.replicate 24 9) = some sub
      ∧ sub.ID = (⟨[97], TypeXChaCha20, List.replicate 56 7⟩ : Skykey).ID := by
  refine ⟨⟨[97], TypeXChaCha20,
    (List.replicate 56 7).take 32 ++ List.replicate 24 9⟩, ?_, ?_⟩
  · decide
  · exact subkey_id_stable ⟨[97], TypeXChaCha20, List.replicate 56 7⟩
      ⟨[97], TypeXChaCha20,
        (List.replicate 56 7).take 32 ++ List.replicate 24 9⟩
      (List.replicate 24 9) (by decide) (by decide)

/-! ## C1: error atomicity of mutations (code bug) -/

/-- C1, failing input: `saveKey` stores the key in both maps *before* the
disk append (skykey.go:495-497), so a `CreateKey` whose disk append fails
returns an error while the maps have already changed — in-memory state is
not left unchanged.  Here: an empty manager, `CreateKey("a", XChaCha20)`
with the disk failing, after which the name `"a"` resolves in `idsByName`
even though the call returned an error. -/
theorem createKey_disk_failure_pollutes_maps :
    (CreateKey emptyManager false [97] TypeXChaCha20
        (List.replicate 56 7)).2 = .error .ioError
    ∧ lookupA (CreateKey emptyManager false [97] TypeXChaCha20
        (List.replicate 56 7)).1.idsByName [97]
        = some (⟨[97], TypeXChaCha20, List.replicate 56 7⟩ : Skykey).ID
    ∧ lookupA emptyManager.idsByName [97] = none := by
  refine ⟨rfl, by decide, rfl⟩

/-! ## C2: AddKey does not reject unsupported cipher types (corrected) -/

/-- C2, counterexample: a key whose cipher type is the all-zero specifier
(not XChaCha20, so `SupportsCipherType` is false) is accepted by `AddKey`
on an empty manager — the call returns no error, not `UnsupportedCipher`,
and the key is inserted. -/
theorem addKey_unsupported_cipher_cex :
    SupportsCipherType (List.replicate 16 0) = false
    ∧ (AddKey emptyManager true
        ⟨[98], List.replicate 16 0, [1, 2, 3]⟩).2 = none
    ∧ lookupA (AddKey emptyManager true
        ⟨[98], List.replicate 16 0, [1, 2, 3]⟩).1.keysByID
        (⟨[98], List.replicate 16 0, [1, 2, 3]⟩ : Skykey).ID
        = some ⟨[98], List.replicate 16 0, [1, 2, 3]⟩ := by
  refine ⟨by decide, rfl, by decide⟩

/-- C2, amended: `AddKey` performs no cipher-type validation at all.  For
*every* key whose ID and name are both fresh — whatever its cipher type —
`AddKey` succeeds and inserts the key into both maps, so unsupported
cipher types can be stored through the import path. -/
theorem addKey_no_cipher_check (sm : SkykeyManager) (sk : Skykey)
    (hid : lookupA sm.keysByID sk.ID = none)
    (hname : lookupA sm.idsByName sk.Name = none) :
    AddKey sm true sk =
      (⟨(sk.Name, sk.ID) :: sm.idsByName, (sk.ID, sk) :: sm.keysByID⟩,
        none) := by
  unfold AddKey
  rw [if_neg (by simp [hid]), if_neg (by simp [hname])]
  rfl

/-- Witness for the amended C2 at a concrete unsupported-cipher key. -/
theorem addKey_no_cipher_check_witness :
    AddKey emptyManager true ⟨[98], List.replicate 16 0, [1, 2, 3]⟩ =
      (⟨[([98], (⟨[98], List.replicate 16 0, [1, 2, 3]⟩ : Skykey).ID)],
        [((⟨[98], List.replicate 16 0, [1, 2, 3]⟩ : Skykey).ID,
          ⟨[98], List.replicate 16 0, [1, 2, 3]⟩)]⟩, none) :=
  addKey_no_cipher_check emptyManager _ (by decide) (by decide)

/-! ## C7: AddKey collision reporting, ID check first -/

/-- C7: `AddKey` reports `IDExists` whenever a stored key already has the
new key's ID (the name is not even consulted, so `IDExists` wins when both
collide), and `NameExists` when the ID is fresh but the name is taken; in
both cases the manager is unchanged. -/
theorem addKey_collision_priority (sm : SkykeyManager) (diskOk : Bool)
    (sk : Skykey) :
    ((lookupA sm.keysByID sk.ID).isSome →
      AddKey sm diskOk sk = (sm, some .idExists))
    ∧ (lookupA sm.keysByID sk.ID = none →
        (lookupA sm.idsByName sk.Name).isSome →
      AddKey sm diskOk sk = (sm, some .nameExists)) := by
  constructor
  · intro h
    unfold AddKey
    rw [if_pos h]
  · intro hid hname
    unfold AddKey
    rw [if_neg (by simp [hid]), if_pos hname]

/-- Witness for C7: a manager holding one key rejects a second key with
the same ID (and same name) with `IDExists`, and rejects a key with a
fresh ID but the same name with `NameExists`. -/
theorem addKey_collision_priority_witness :
    (AddKey (AddKey emptyManager true
        ⟨[97], TypeXChaCha20, List.replicate 56 7⟩).1 true
        ⟨[97], TypeXChaCha20, List.replicate 56 7⟩
      = ((AddKey emptyManager true
        ⟨[97], TypeXChaCha20, List.replicate 56 7⟩).1, some .idExists))
    ∧ (AddKey (AddKey emptyManager true
        ⟨[97], TypeXChaCha20, List.replicate 56 7⟩).1 true
        ⟨[97], TypeXChaCha20, List.replicate 56 8⟩
      = ((AddKey emptyManager true
        ⟨[97], TypeXChaCha20, List.replicate 56 7⟩).1, some .nameExists)) :=
  ⟨(addKey_collision_priority _ true _).1 (by decide),
   (addKey_collision_priority _ true _).2 (by decide) (by decide)⟩

/-! ## C10: AddKey bypasses the name-length limit -/

/-- C10: `AddKey` never checks the name length.  A key whose name is 129
bytes — over the 128-byte `MaxKeyNameLen` that `CreateKey` enforces — with
a fresh name and ID and the storable XChaCha20 cipher type is accepted and
inserted, so the length limit can be bypassed through the import path. -/
theorem addKey_bypasses_name_limit :
    MaxKeyNameLen < (List.replicate 129 97).length
    ∧ (AddKey emptyManager true ⟨List.replicate 129 97, TypeXChaCha20,
        List.replicate 56 3⟩).2 = none
    ∧ lookupA (AddKey emptyManager true ⟨List.replicate 129 97,
        TypeXChaCha20, List.replicate 56 3⟩).1.idsByName
        (List.replicate 129 97)
        = some (⟨List.replicate 129 97, TypeXChaCha20,
            List.replicate 56 3⟩ : Skykey).ID := by
  refine ⟨by decide, rfl, by decide⟩

/-! ## C6: CreateKey validation and result -/

/-- C6: `CreateKey` fails with `NameTooLong` exactly on a name over 128
bytes, with `UnsupportedCipher` exactly when the name fits but the cipher
type is not XChaCha20, and with `NameExists` exactly when a stored key
already has the name; it succeeds — returning a key with exactly the given
name, the given cipher type and the freshly drawn entropy — exactly when
all three checks pass, for *every* manager state, so the key's ID is never
consulted for uniqueness. -/
theorem createKey_checks (sm : SkykeyManager) (name ct ent : List Nat) :
    ((CreateKey sm true name ct ent).2 = .error .nameTooLong ↔
      MaxKeyNameLen < name.length)
    ∧ ((CreateKey sm true name ct ent).2 = .error .unsupportedCipher ↔
      name.length ≤ MaxKeyNameLen ∧ ct ≠ TypeXChaCha20)
    ∧ ((CreateKey sm true name ct ent).2 = .error .nameExists ↔
      name.length ≤ MaxKeyNameLen ∧ ct = TypeXChaCha20 ∧
        (lookupA sm.idsByName name).isSome)
    ∧ ((CreateKey sm true name ct ent).2 = .ok ⟨name, ct, ent⟩ ↔
      name.length ≤ MaxKeyNameLen ∧ ct = TypeXChaCha20 ∧
        lookupA sm.idsByName name = none)
    ∧ (∀ sk, (CreateKey sm true name ct ent).2 = .ok sk →
        sk = ⟨name, ct, ent⟩) := by
  by_cases h1 : MaxKeyNameLen < name.length
  · have e : CreateKey sm true name ct ent = (sm, .error .nameTooLong) := by
      unfold CreateKey
      rw [if_pos h1]
    have h1' : ¬ name.length ≤ MaxKeyNameLen := Nat.not_le.mpr h1
    rw [e]
    exact ⟨by simp [h1], by simp [h1'], by simp [h1'], by simp [h1'],
      by simp⟩
  · have h1' : name.length ≤ MaxKeyNameLen := Nat.not_lt.mp h1
    by_cases h2 : ct = TypeXChaCha20
    · by_cases h3 : (lookupA sm.idsByName name).isSome
      · have e : CreateKey sm true name ct ent = (sm, .error .nameExists) := by
          unfold CreateKey
          rw [if_neg h1, if_neg (by simp [SupportsCipherType, h2]), if_pos h3]
        rw [e]
        exact ⟨by simp [h1], by simp [h2], by simp [h1', h2, h3], by
          simp only [Except.error.injEq]
          constructor
          · intro h; exact absurd h (by simp)
          · rintro ⟨-, -, hnone⟩
            rw [hnone] at h3
            exact absurd h3 (by simp), by simp⟩
      · have hnone : lookupA sm.idsByName name = none :=
          Option.not_isSome_iff_eq_none.mp h3
        have e : CreateKey sm true name ct ent =
            (⟨(name, (⟨name, ct, ent⟩ : Skykey).ID) :: sm.idsByName,
              ((⟨name, ct, ent⟩ : Skykey).ID, ⟨name, ct, ent⟩) ::
                sm.keysByID⟩, .ok ⟨name, ct, ent⟩) := by
          unfold CreateKey
          rw [if_neg h1, if_neg (by simp [SupportsCipherType, h2]),
            if_neg h3]
          rfl
        rw [e]
        exact ⟨by simp [h1], by simp [h2], by simp [h3], by
          simp [h1', h2, hnone], by simp⟩
    · have e : CreateKey sm true name ct ent =
          (sm, .error .unsupportedCipher) := by
        unfold CreateKey
        rw [if_neg h1, if_pos (by simp [SupportsCipherType, h2])]
      rw [e]
      exact ⟨by simp [h1], by simp [h1', h2], by simp [h2], by simp [h2],
        by simp⟩

/-- Witness for C6: on an empty manager a valid creation succeeds with
exactly the requested name, cipher type and drawn entropy. -/
theorem createKey_checks_witness :
    (CreateKey emptyManager true [97] TypeXChaCha20
        (List.replicate 56 7)).2
      = .ok ⟨[97], TypeXChaCha20, List.replicate 56 7⟩ :=
  (createKey_checks emptyManager [97] TypeXChaCha20
    (List.replicate 56 7)).2.2.2.1.mpr (by decide)

/-! ## C9: dual-map consistency -/

/-- The dual-map invariant: every ID in the range of `idsByName` owns an
entry of `keysByID`. -/
def Consistent (sm : SkykeyManager) : Prop :=
  ∀ p ∈ sm.idsByName, (lookupA sm.keysByID p.2).isSome

theorem consistent_insert (sm : SkykeyManager) (nm : List Nat)
    (id : SkykeyID) (k : Skykey) (h : Consistent sm) :
    Consistent ⟨(nm, id) :: sm.idsByName, (id, k) :: sm.keysByID⟩ := by
  intro p hp
  rcases List.mem_cons.mp hp with hp | hp
  · subst hp
    simp [lookupA]
  · exact lookupA_cons_isSome _ _ _ _ (h p hp)

theorem consistent_saveKey (sm : SkykeyManager) (d : Bool) (sk : Skykey)
    (h : Consistent sm) : Consistent (saveKey sm d sk).1 := by
  unfold saveKey
  cases d <;> exact consistent_insert sm _ _ _ h

theorem consistent_createKey (sm : SkykeyManager) (d : Bool)
    (name ct ent : List Nat) (h : Consistent sm) :
    Consistent (CreateKey sm d name ct ent).1 := by
  unfold CreateKey
  split
  · exact h
  split
  · exact h
  split
  · exact h
  dsimp only
  have hs := consistent_saveKey sm d ⟨name, ct, ent⟩ h
  cases hsk : saveKey sm d ⟨name, ct, ent⟩ with
  | mk sm' r =>
    rw [hsk] at hs
    cases r
    · exact hs
    · exact hs

theorem consistent_addKey (sm : SkykeyManager) (d : Bool) (sk : Skykey)
    (h : Consistent sm) : Consistent (AddKey sm d sk).1 := by
  unfold AddKey
  split
  · exact h
  split
  · exact h
  exact consistent_saveKey sm d sk h

theorem consistent_loadRecords (file : List Nat) (fileLen : Nat) :
    ∀ (fuel n : Nat) (sm sm' : SkykeyManager), Consistent sm →
    loadRecords fuel file n fileLen sm = .ok sm' → Consistent sm' := by
  intro fuel
  induction fuel with
  | zero =>
    intro n sm sm' h he
    exact absurd he (by simp [loadRecords])
  | succ fuel ih =>
    intro n sm sm' h he
    unfold loadRecords at he
    by_cases hlt : n < fileLen
    · rw [if_pos hlt] at he
      cases hm : unmarshalSia (file.drop n) with
      | none =>
        rw [hm] at he
        exact absurd he (by simp)
      | some p =>
        obtain ⟨sk, c⟩ := p
        rw [hm] at he
        exact ih _ _ _ (consistent_insert sm _ _ _ h) he
    · rw [if_neg hlt] at he
      by_cases heq2 : n = fileLen
      · rw [if_pos heq2] at he
        injection he with he
        subst he
        exact h
      · rw [if_neg heq2] at he
        exact absurd he (by simp)

theorem reachable_consistent (sm : SkykeyManager) (h : Reachable sm) :
    Consistent sm := by
  induction h with
  | init =>
    intro p hp
    simp [emptyManager] at hp
  | loaded file fileLen sm' he =>
    exact consistent_loadRecords file fileLen _ _ _ _
      (fun p hp => by simp [emptyManager] at hp) he
  | created sm sm' d name ct ent r hR he ih =>
    have := consistent_createKey sm d name ct ent ih
    rw [he] at this
    exact this
  | added sm sm' d sk r hR he ih =>
    have := consistent_addKey sm d sk ih
    rw [he] at this
    exact this

/-- C9: in every manager state reachable through `load`, `CreateKey` and
`AddKey`, every ID in the range of `idsByName` is a present key of
`keysByID`; consequently `KeyByName` can only answer `.ok` or
`NoSuchName` — its `NoSuchID` branch is unreachable. -/
theorem dual_map_consistency (sm : SkykeyManager) (h : Reachable sm) :
    (∀ p ∈ sm.idsByName, (lookupA sm.keysByID p.2).isSome)
    ∧ ∀ name, KeyByName sm name ≠ .error .noSuchID := by
  have hc := reachable_consistent sm h
  refine ⟨hc, ?_⟩
  intro name
  unfold KeyByName
  cases hl : lookupA sm.idsByName name with
  | none => simp
  | some id =>
    have hs := hc (name, id) (lookupA_mem _ _ _ hl)
    cases hk : lookupA sm.keysByID id with
    | none =>
      rw [hk] at hs
      exact absurd hs (by simp)
    | some k => simp [hk]

/-- Witness for C9 at the freshly initialised manager. -/
theorem dual_map_consistency_witness :
    KeyByName emptyManager [97] ≠ .error .noSuchID :=
  (dual_map_consistency emptyManager Reachable.init).2 [97]

/-! ## C5: version negotiation on load -/

/-- C5: for a header made of the correct magic, a version specifier
holding NUL-free content right-padded with NUL (the on-disk specifier
format, spec §6), and an 8-byte file length: if the content is not a valid
version the load fails with the missing-version error; if it is a valid
version, the load fails with the unknown-version error exactly when the
on-disk version is strictly newer than the code's `1.4.4`, and otherwise
the header is accepted, yielding the version and the decoded file
length. -/
theorem loadHeader_version_gate (content fl : List Nat)
    (hnz : ∀ b ∈ content, b ≠ 0) (hcl : content.length ≤ specifierLen)
    (hfl : fl.length = 8) :
    (IsVersion content = false →
      loadHeader (SkykeyFileMagic ++ padSpecifier content ++ fl)
        = .error .badVersion)
    ∧ (IsVersion content = true →
        (VersionCmp skykeyVersionString content < 0 →
          loadHeader (SkykeyFileMagic ++ padSpecifier content ++ fl)
            = .error .unknownVersion)
        ∧ (0 ≤ VersionCmp skykeyVersionString content →
          loadHeader (SkykeyFileMagic ++ padSpecifier content ++ fl)
            = .ok (padSpecifier content, leDecode fl))) := by
  have hmlen : SkykeyFileMagic.length = specifierLen := by decide
  have hplen : (padSpecifier content).length = specifierLen := by
    unfold padSpecifier
    rw [List.length_append, List.length_replicate]
    omega
  have hlen40 : (SkykeyFileMagic ++ padSpecifier content ++ fl).length
      = headerLen := by
    rw [List.length_append, List.length_append, hmlen, hplen, hfl]
    rfl
  have htakeMagic : (SkykeyFileMagic ++ padSpecifier content ++ fl).take
      specifierLen = SkykeyFileMagic := by
    rw [List.append_assoc]
    exact List.take_left' hmlen
  have hviewVersion : ((SkykeyFileMagic ++ padSpecifier content ++ fl).drop
      specifierLen).take specifierLen = padSpecifier content := by
    rw [List.append_assoc, List.drop_left' hmlen]
    exact List.take_left' hplen
  have hdrop32 : (SkykeyFileMagic ++ padSpecifier content ++ fl).drop
      (2 * specifierLen) = fl := by
    refine List.drop_left' ?_
    rw [List.length_append, hmlen, hplen]
    omega
  have htakefl : ((SkykeyFileMagic ++ padSpecifier content ++ fl).drop
      (2 * specifierLen)).take 8 = fl := by
    rw [hdrop32, ← hfl, List.take_length]
  have hfilter : (padSpecifier content).filter (fun b => b ≠ 0) = content := by
    unfold padSpecifier
    rw [List.filter_append]
    have h1 : content.filter (fun b => decide (b ≠ 0)) = content :=
      List.filter_eq_self.mpr (fun a ha => decide_eq_true (hnz a ha))
    have h2 : (List.replicate (specifierLen - content.length) 0).filter
        (fun b => decide (b ≠ 0)) = [] :=
      List.filter_replicate_of_neg (by simp)
    rw [h1, h2, List.append_nil]
  have hmain : loadHeader (SkykeyFileMagic ++ padSpecifier content ++ fl) =
      (if ¬ IsVersion content then .error .badVersion
       else if VersionCmp skykeyVersionString content < 0 then
         .error .unknownVersion
       else .ok (padSpecifier content, leDecode fl)) := by
    unfold loadHeader
    rw [if_neg (by rw [hlen40]; omega), if_neg (by rw [htakeMagic]; simp)]
    dsimp only
    rw [hviewVersion, hfilter, htakefl]
  refine ⟨?_, ?_⟩
  · intro h
    rw [hmain, if_pos (by rw [h]; simp)]
  · intro h
    refine ⟨?_, ?_⟩
    · intro hcmp
      rw [hmain, if_neg (by rw [h]; simp), if_pos hcmp]
    · intro hcmp
      rw [hmain, if_neg (by rw [h]; simp), if_neg (Int.not_lt.mpr hcmp)]

/-- Witness for C5: a header advertising version `9.9.9` (newer than
`1.4.4`) is rejected with the unknown-version error. -/
theorem loadHeader_version_gate_witness :
    loadHeader (SkykeyFileMagic ++ padSpecifier [57, 46, 57, 46, 57] ++
      leEncodeN 8 40) = .error .unknownVersion :=
  ((loadHeader_version_gate [57, 46, 57, 46, 57] (leEncodeN 8 40)
    (by decide) (by decide) (by decide)).2 (by decide)).1 (by decide)

/-! ## C4: load is fatal on a bad or misaligned record -/

theorem loadRecords_zero (file : List Nat) (n fileLen : Nat)
    (sm : SkykeyManager) :
    loadRecords 0 file n fileLen sm = .error .ioError := rfl

theorem loadRecords_succ (fuel : Nat) (file : List Nat) (n fileLen : Nat)
    (sm : SkykeyManager) :
    loadRecords (fuel + 1) file n fileLen sm =
      (if n < fileLen then
        match unmarshalSia (file.drop n) with
        | none => .error .badEncoding
        | some (sk, consumed) =>
          loadRecords fuel file (n + consumed) fileLen
            ⟨(sk.Name, sk.ID) :: sm.idsByName, (sk.ID, sk) :: sm.keysByID⟩
      else if n = fileLen then .ok sm
      else .error .truncatedFile) := rfl

theorem loadRecords_fatal (file : List Nat) (fileLen : Nat) :
    ∀ (n m : Nat), Reaches file fileLen n m →
    ∀ (fuel : Nat) (sm : SkykeyManager), fileLen < n + fuel →
    m < fileLen →
    (unmarshalSia (file.drop m) = none ∨
      ∃ sk c, unmarshalSia (file.drop m) = some (sk, c) ∧ fileLen < m + c) →
    ∃ e, loadRecords fuel file n fileLen sm = .error e := by
  intro n m hr
  induction hr with
  | refl n =>
    intro fuel sm hfuel hm hbad
    cases fuel with
    | zero => exact absurd hm (by omega)
    | succ fuel =>
      rw [loadRecords_succ, if_pos hm]
      rcases hbad with hbad | ⟨sk, c, hbad, hover⟩
      · rw [hbad]
        exact ⟨_, rfl⟩
      · rw [hbad]
        dsimp only
        cases fuel with
        | zero => exact ⟨_, rfl⟩
        | succ fuel2 =>
          rw [loadRecords_succ, if_neg (by omega), if_neg (by omega)]
          exact ⟨_, rfl⟩
  | step n m sk c hlt hdec hrest ih =>
    intro fuel sm hfuel hm hbad
    have hc : 32 ≤ c := unmarshalSia_consumed _ _ _ hdec
    cases fuel with
    | zero => exact absurd hfuel (by omega)
    | succ fuel =>
      rw [loadRecords_succ, if_pos hlt, hdec]
      exact ih fuel _ (by omega) hm hbad

/-- C4: records are decoded one at a time from offset `headerLen`; for
every file in which, at some offset the loop reaches, a record fails to
decode before `fileLen`, or decodes but carries the offset strictly past
`fileLen` (a `fileLen` pointing mid-record), `load` returns an error — so
the manager is never constructed from such a file. -/
theorem load_fatal_on_bad_record (file : List Nat) (fileLen m : Nat)
    (hr : Reaches file fileLen headerLen m) (hm : m < fileLen)
    (hbad : unmarshalSia (file.drop m) = none ∨
      ∃ sk c, unmarshalSia (file.drop m) = some (sk, c) ∧ fileLen < m + c) :
    ∃ e, load file fileLen = .error e :=
  loadRecords_fatal file fileLen headerLen m hr (fileLen + 1) emptyManager
    (by omega) hm hbad

/-- Witness for C4: a 40-byte file whose header advertises `fileLen = 50`:
at offset 40 there is nothing left to decode yet the offset has not
reached 50, so loading fails. -/
theorem load_fatal_on_bad_record_witness :
    ∃ e, load (List.replicate 40 1) 50 = .error e :=
  load_fatal_on_bad_record (List.replicate 40 1) 50 40
    (Reaches.refl 40) (by decide) (Or.inl (by decide))

/-! ## C8: codec and base64 round-trip -/

theorem leEncodeN_length (k : Nat) : ∀ n, (leEncodeN k n).length = k := by
  induction k with
  | zero => intro n; rfl
  | succ k ih => intro n; simp [leEncodeN, ih]

theorem leEncodeN_mem_lt (k : Nat) : ∀ n, ∀ b ∈ leEncodeN k n, b < 256 := by
  induction k with
  | zero => intro n b hb; simp [leEncodeN] at hb
  | succ k ih =>
    intro n b hb
    simp only [leEncodeN, List.mem_cons] at hb
    rcases hb with hb | hb
    · subst hb
      exact Nat.mod_lt _ (by omega)
    · exact ih _ b hb

theorem leDecode_leEncodeN (k : Nat) : ∀ n, n < 256 ^ k →
    leDecode (leEncodeN k n) = n := by
  induction k with
  | zero =>
    intro n h
    simp only [pow_zero, Nat.lt_one_iff] at h
    simp [h, leEncodeN, leDecode]
  | succ k ih =>
    intro n h
    have hdiv : n / 256 < 256 ^ k := by
      rw [Nat.div_lt_iff_lt_mul (by omega)]
      calc n < 256 ^ (k + 1) := h
        _ = 256 ^ k * 256 := pow_succ 256 k
    simp only [leEncodeN, leDecode, ih (n / 256) hdiv]
    exact Nat.mod_add_div n 256

theorem leEncodeN_leDecode : ∀ (bs : List Nat), (∀ b ∈ bs, b < 256) →
    leEncodeN bs.length (leDecode bs) = bs := by
  intro bs
  induction bs with
  | nil => intro _; rfl
  | cons b rest ih =>
    intro hb
    have hb0 : b < 256 := hb b (List.mem_cons_self _ _)
    simp only [List.length_cons, leEncodeN, leDecode]
    have hhead : (b + 256 * leDecode rest) % 256 = b := by omega
    have htail : (b + 256 * leDecode rest) / 256 = leDecode rest := by omega
    rw [hhead, htail, ih (fun x hx => hb x (List.mem_cons_of_mem _ hx))]

theorem leDecode_lt : ∀ (bs : List Nat), (∀ b ∈ bs, b < 256) →
    leDecode bs < 256 ^ bs.length := by
  intro bs
  induction bs with
  | nil => intro _; simp [leDecode]
  | cons b rest ih =>
    intro hb
    have hb0 : b < 256 := hb b (List.mem_cons_self _ _)
    have hr : leDecode rest < 256 ^ rest.length :=
      ih (fun x hx => hb x (List.mem_cons_of_mem _ hx))
    simp only [leDecode, List.length_cons]
    calc b + 256 * leDecode rest < 256 * (leDecode rest + 1) := by omega
      _ ≤ 256 * 256 ^ rest.length := Nat.mul_le_mul_left 256 hr
      _ = 256 ^ (rest.length + 1) := by rw [pow_succ, Nat.mul_comm]

theorem allocLimit_lt : allocLimit < 256 ^ 8 := by decide

theorem decodePrefixed_encode (v rest : List Nat)
    (hv : v.length ≤ allocLimit) :
    decodePrefixed (leEncodeN 8 v.length ++ v ++ rest) = some (v, rest) := by
  have hlen8 : (leEncodeN 8 v.length).length = 8 := leEncodeN_length 8 _
  have h1 : (leEncodeN 8 v.length ++ v ++ rest).take 8
      = leEncodeN 8 v.length := by
    rw [List.append_assoc]
    exact List.take_left' hlen8
  have h2 : (leEncodeN 8 v.length ++ v ++ rest).drop 8 = v ++ rest := by
    rw [List.append_assoc]
    exact List.drop_left' hlen8
  have h3 : leDecode ((leEncodeN 8 v.length ++ v ++ rest).take 8)
      = v.length := by
    rw [h1]
    exact leDecode_leEncodeN 8 _ (lt_of_le_of_lt hv allocLimit_lt)
  unfold decodePrefixed
  rw [if_neg (by
    rw [List.length_append, List.length_append, hlen8]
    omega)]
  dsimp only
  rw [h3, h2]
  rw [if_neg (by omega), if_neg (by rw [List.length_append]; omega)]
  rw [List.take_left, List.drop_left]

theorem decodePrefixed_encode_nil (v : List Nat)
    (hv : v.length ≤ allocLimit) :
    decodePrefixed (leEncodeN 8 v.length ++ v) = some (v, []) := by
  have := decodePrefixed_encode v [] hv
  rwa [List.append_nil] at this

theorem marshalSia_length (sk : Skykey)
    (hctl : sk.CipherType.length = specifierLen) :
    (marshalSia sk).length =
      8 + sk.Name.length + specifierLen + 8 + sk.Entropy.length := by
  unfold marshalSia
  simp only [List.length_append, leEncodeN_length, hctl]

theorem unmarshalSia_marshalSia (sk : Skykey)
    (hctl : sk.CipherType.length = specifierLen)
    (hnl : sk.Name.length ≤ allocLimit)
    (hel : sk.Entropy.length ≤ allocLimit) :
    unmarshalSia (marshalSia sk) = some (sk, (marshalSia sk).length) := by
  have e1 : marshalSia sk = leEncodeN 8 sk.Name.length ++ sk.Name ++
      (sk.CipherType ++ (leEncodeN 8 sk.Entropy.length ++ sk.Entropy)) := by
    unfold marshalSia
    simp [List.append_assoc]
  unfold unmarshalSia
  rw [e1, decodePrefixed_encode _ _ hnl]
  dsimp only
  rw [if_neg (by rw [List.length_append, hctl]; omega)]
  rw [List.take_left' hctl, List.drop_left' hctl,
    decodePrefixed_encode_nil _ hel]
  dsimp only
  rw [← e1, marshalSia_length sk hctl]

theorem decodePrefixed_inv (bs v rest : List Nat)
    (hb : ∀ b ∈ bs, b < 256)
    (h : decodePrefixed bs = some (v, rest)) :
    bs = leEncodeN 8 v.length ++ v ++ rest ∧ v.length ≤ allocLimit := by
  unfold decodePrefixed at h
  by_cases h8 : bs.length < 8
  · rw [if_pos h8] at h
    cases h
  · rw [if_neg h8] at h
    dsimp only at h
    by_cases ha : allocLimit < leDecode (bs.take 8)
    · rw [if_pos ha] at h
      cases h
    · rw [if_neg ha] at h
      by_cases hrl : (bs.drop 8).length < leDecode (bs.take 8)
      · rw [if_pos hrl] at h
        cases h
      · rw [if_neg hrl] at h
        injection h with h
        obtain ⟨hv, hrest⟩ := Prod.mk.injEq .. ▸ h
        have hvlen : v.length = leDecode (bs.take 8) := by
          rw [← hv, List.length_take]
          omega
        refine ⟨?_, by omega⟩
        have htk8 : (bs.take 8).length = 8 := by
          rw [List.length_take]
          omega
        have henc : leEncodeN 8 v.length = bs.take 8 := by
          have hrt := leEncodeN_leDecode (bs.take 8)
            (fun b hb' => hb b (List.take_subset _ _ hb'))
          rw [htk8] at hrt
          rw [hvlen]
          exact hrt
        rw [henc, ← hv, ← hrest, List.append_assoc, List.take_append_drop,
          List.take_append_drop]

theorem unmarshalSia_reencode (bs : List Nat) (k : Skykey) (c : Nat)
    (hb : ∀ b ∈ bs, b < 256) (h : unmarshalSia bs = some (k, c)) :
    marshalSia k = bs.take c := by
  unfold unmarshalSia at h
  cases h1 : decodePrefixed bs with
  | none =>
    rw [h1] at h
    cases h
  | some p =>
    obtain ⟨name, r1⟩ := p
    rw [h1] at h
    dsimp only at h
    by_cases h2 : r1.length < specifierLen
    · rw [if_pos h2] at h
      cases h
    · rw [if_neg h2] at h
      cases h3 : decodePrefixed (r1.drop specifierLen) with
      | none =>
        rw [h3] at h
        cases h
      | some q =>
        obtain ⟨ent, r2⟩ := q
        rw [h3] at h
        injection h with h
        obtain ⟨hk, hc⟩ := Prod.mk.injEq .. ▸ h
        obtain ⟨hbs, hname_le⟩ := decodePrefixed_inv bs name r1 hb h1
        have hbr1 : ∀ b ∈ r1, b < 256 := by
          intro b hb1
          refine hb b ?_
          rw [hbs]
          simp [hb1]
        obtain ⟨hr1d, hent_le⟩ := decodePrefixed_inv (r1.drop specifierLen)
          ent r2 (fun b hb1 => hbr1 b (List.drop_subset _ _ hb1)) h3
        have hkm : marshalSia k = leEncodeN 8 name.length ++ name ++
            (r1.take specifierLen ++
              (leEncodeN 8 ent.length ++ ent)) := by
          rw [← hk]
          unfold marshalSia
          simp [List.append_assoc]
        have hr1split : r1 = r1.take specifierLen ++
            (leEncodeN 8 ent.length ++ ent ++ r2) := by
          conv_lhs => rw [← List.take_append_drop specifierLen r1]
          rw [hr1d]
        have hsplit : bs = marshalSia k ++ r2 := by
          rw [hkm, hbs]
          conv_lhs => rw [hr1split]
          simp [List.append_assoc]
        have hclen : (marshalSia k).length = c := by
          rw [← hc, ← hk]
          exact marshalSia_length ⟨name, r1.take specifierLen, ent⟩
            (by simp [List.length_take]; omega)
        rw [hsplit, ← hclen, List.take_left]

theorem b64CharDec_b64Char : ∀ v, v < 64 →
    b64CharDec (b64Char v) = some v := by decide

theorem b64Char_ne_61 : ∀ v, v < 64 → b64Char v ≠ 61 := by decide

theorem b64_roundtrip : ∀ (bs : List Nat), (∀ b ∈ bs, b < 256) →
    b64Decode (b64Encode bs) = some bs
  | [] => fun _ => rfl
  | [b0] => by
    intro hb
    have h0 : b0 < 256 := hb b0 (by simp)
    have e0 : b0 * 16 / 64 * 4 + b0 * 16 % 64 / 16 = b0 := by omega
    simp only [b64Encode, b64Decode]
    rw [b64CharDec_b64Char _ (by omega), b64CharDec_b64Char _ (by omega)]
    simp [e0]
  | [b0, b1] => by
    intro hb
    have h0 : b0 < 256 := hb b0 (by simp)
    have h1 : b1 < 256 := hb b1 (by simp)
    have e0 : (b0 * 1024 + b1 * 4) / 4096 * 4 +
        (b0 * 1024 + b1 * 4) / 64 % 64 / 16 = b0 := by omega
    have e1 : (b0 * 1024 + b1 * 4) / 64 % 64 % 16 * 16 +
        (b0 * 1024 + b1 * 4) % 64 / 4 = b1 := by omega
    simp only [b64Encode, b64Decode]
    rw [b64CharDec_b64Char _ (by omega), b64CharDec_b64Char _ (by omega)]
    dsimp only
    rw [if_neg (b64Char_ne_61 _ (by omega)),
      b64CharDec_b64Char _ (by omega)]
    simp [e0, e1]
  | b0 :: b1 :: b2 :: rest => by
    intro hb
    have h0 : b0 < 256 := hb b0 (by simp)
    have h1 : b1 < 256 := hb b1 (by simp)
    have h2 : b2 < 256 := hb b2 (by simp)
    have ih := b64_roundtrip rest
      (fun b hb' => hb b (by simp [hb']))
    have e0 : (b0 * 65536 + b1 * 256 + b2) / 262144 * 4 +
        (b0 * 65536 + b1 * 256 + b2) / 4096 % 64 / 16 = b0 := by omega
    have e1 : (b0 * 65536 + b1 * 256 + b2) / 4096 % 64 % 16 * 16 +
        (b0 * 65536 + b1 * 256 + b2) / 64 % 64 / 4 = b1 := by omega
    have e2 : (b0 * 65536 + b1 * 256 + b2) / 64 % 64 % 4 * 64 +
        (b0 * 65536 + b1 * 256 + b2) % 64 = b2 := by omega
    simp only [b64Encode, b64Decode]
    rw [b64CharDec_b64Char _ (by omega), b64CharDec_b64Char _ (by omega)]
    dsimp only
    rw [if_neg (b64Char_ne_61 _ (by omega)),
      b64CharDec_b64Char _ (by omega)]
    dsimp only
    rw [if_neg (b64Char_ne_61 _ (by omega)),
      b64CharDec_b64Char _ (by omega)]
    dsimp only
    rw [ih]
    simp [e0, e1, e2]

theorem marshalSia_bytes_lt (sk : Skykey)
    (hname : ∀ b ∈ sk.Name, b < 256) (hct : ∀ b ∈ sk.CipherType, b < 256)
    (hent : ∀ b ∈ sk.Entropy, b < 256) :
    ∀ b ∈ marshalSia sk, b < 256 := by
  intro b hbm
  unfold marshalSia at hbm
  simp only [List.mem_append] at hbm
  rcases hbm with (((hbm | hbm) | hbm) | hbm) | hbm
  · exact leEncodeN_mem_lt 8 _ b hbm
  · exact hname b hbm
  · exact hct b hbm
  · exact leEncodeN_mem_lt 8 _ b hbm
  · exact hent b hbm

/-- C8: the codec and base64 text form round-trip.  For every valid key
(byte-valued fields, a 16-byte cipher-type tag, lengths within the decoder
allocation limit): decoding the key's wire form yields the key itself,
consuming the whole wire form; `FromString (ToString k) = k`; and, in the
other direction, any successful decode re-encodes to exactly the bytes it
consumed. -/
theorem codec_roundtrip (sk : Skykey)
    (hname : ∀ b ∈ sk.Name, b < 256) (hct : ∀ b ∈ sk.CipherType, b < 256)
    (hent : ∀ b ∈ sk.Entropy, b < 256)
    (hctl : sk.CipherType.length = specifierLen)
    (hnl : sk.Name.length ≤ allocLimit)
    (hel : sk.Entropy.length ≤ allocLimit) :
    unmarshalSia (marshalSia sk) = some (sk, (marshalSia sk).length)
    ∧ FromString (ToString sk) = some sk
    ∧ ∀ (bs : List Nat) (k : Skykey) (c : Nat), (∀ b ∈ bs, b < 256) →
        unmarshalSia bs = some (k, c) → marshalSia k = bs.take c := by
  refine ⟨unmarshalSia_marshalSia sk hctl hnl hel, ?_,
    fun bs k c hb h => unmarshalSia_reencode bs k c hb h⟩
  unfold ToString FromString
  rw [b64_roundtrip _ (marshalSia_bytes_lt sk hname hct hent)]
  dsimp only
  rw [unmarshalSia_marshalSia sk hctl hnl hel]

/-- Witness for C8 at a concrete key. -/
theorem codec_roundtrip_witness :
    FromString (ToString ⟨[97], TypeXChaCha20, List.replicate 56 7⟩)
      = some ⟨[97], TypeXChaCha20, List.replicate 56 7⟩ :=
  (codec_roundtrip ⟨[97], TypeXChaCha20, List.replicate 56 7⟩ (by decide)
    (by decide) (by decide) (by decide) (by decide) (by decide)).2.1

end Skykeys
